import Mathlib

/-!
# Verification of the MPAGS cipher engine and its chunked dispatcher

This file gives a shallow embedding, in Lean 4, of the cipher engine of the
`mpags-cipher` program and of the chunked-parallel dispatch logic of its two
driver versions, and proves the spec's claims about them.

The repository sources provide the two driver `main` functions (the older one
with a uniform chunking loop, in `src/mpags-cipher.cpp`, and the newer one
that special-cases the cipher types, here called the *newer driver*), the
exception declarations, and the unit-test file.  The three cipher classes
(`CaesarCipher`, `PlayfairCipher`, `VigenereCipher`) and the `cipherFactory`
are not among the provided sources, so they are modelled from the spec
(sections 4.1-4.4), with each such definition marked `Modelled from the spec`.
Texts are modelled as `List Char`, machine sizes as `Nat`.
-/

namespace MPAGS

/-- The cipher mode enumeration (`CipherMode.hpp`): encryption or decryption,
passed per call. -/
inductive CipherMode where
  | Encrypt
  | Decrypt
deriving DecidableEq, Repr

/-- The cipher type enumeration (`CipherType.hpp`): the three supported
ciphers. -/
inductive CipherType where
  | Caesar
  | Playfair
  | Vigenere
deriving DecidableEq, Repr

/-! ## Alphabet arithmetic (spec section 2, "Alphabet arithmetic") -/

/-- The code point of the letter `A`. -/
def letterA : Nat := 65

/-- A character is an uppercase letter `A`-`Z`. -/
def isUpperAlpha (c : Char) : Prop := letterA ≤ c.toNat ∧ c.toNat ≤ 90

instance (c : Char) : Decidable (isUpperAlpha c) := by
  unfold isUpperAlpha; infer_instance

/-- Modelled from the spec: the per-letter shift transform of section 4.1
(`CaesarCipher` is not among the provided sources).  Encrypt maps `c` to
`(c - 'A' + s) mod 26 + 'A'`; Decrypt maps `c` to `(c - 'A' - s) mod 26 + 'A'`
(mod-26 subtraction, written over `Nat` as addition of `26 - s % 26`).
Non-letters pass through unchanged. -/
def shiftChar (s : Nat) (mode : CipherMode) (c : Char) : Char :=
  if isUpperAlpha c then
    match mode with
    | CipherMode.Encrypt => Char.ofNat (letterA + (c.toNat - letterA + s) % 26)
    | CipherMode.Decrypt => Char.ofNat (letterA + (c.toNat - letterA + (26 - s % 26)) % 26)
  else c

/-- Modelled from the spec: `CaesarCipher::applyCipher` (section 4.1), the
per-character shift applied across the whole text. -/
def caesarApply (s : Nat) (mode : CipherMode) (text : List Char) : List Char :=
  text.map (shiftChar s mode)

/-! ## Polyalphabetic (Vigenere) cipher (spec section 4.3) -/

/-- Modelled from the spec: the per-position shift of section 4.3,
`keyword[i mod keyLen] - 'A'`, the keyword taken cyclically.  The keyword is
expected in uppercase here (`vigenereApply` case-folds it first, since key
validation accepts lowercase letters). -/
def keyShiftAt (key : List Char) (i : Nat) : Nat :=
  (key.getD (i % key.length) 'A').toNat - letterA

/-- Modelled from the spec: the positional loop of `VigenereCipher::applyCipher`
(section 4.3), applying the shift-cipher arithmetic at stream position `i`. -/
def vigenereGo (key : List Char) (mode : CipherMode) : Nat → List Char → List Char
  | _, [] => []
  | i, c :: rest => shiftChar (keyShiftAt key i) mode c :: vigenereGo key mode (i + 1) rest

/-- Modelled from the spec: `VigenereCipher::applyCipher` (section 4.3); the
key cycle starts at index 0. -/
def vigenereApply (key : List Char) (mode : CipherMode) (text : List Char) : List Char :=
  vigenereGo (key.map Char.toUpper) mode 0 text

/-! ## Digraph-substitution (Playfair) cipher (spec section 4.2) -/

/-- The merged-letter convention of section 4.2: `J` is merged into `I`. -/
def jToI (c : Char) : Char := if c = 'J' then 'I' else c

/-- De-duplication of the keyword letters, keeping first occurrences;
`seen` accumulates the letters already emitted. -/
def dedupeAux : List Char → List Char → List Char
  | [], _ => []
  | c :: rest, seen =>
    if seen.contains c then dedupeAux rest seen
    else c :: dedupeAux rest (c :: seen)

/-- De-duplication of the keyword letters, keeping first occurrences. -/
def dedupe (l : List Char) : List Char := dedupeAux l []

/-- The 25-letter alphabet with `J` merged away (section 4.2). -/
def alphabet25 : List Char := "ABCDEFGHIKLMNOPQRSTUVWXYZ".toList

/-- Modelled from the spec: the 5x5 key square of section 4.2 — deduplicated
letters of the (case-folded, J-merged) keyword followed by the remaining
alphabet letters in order. -/
def keySquare (key : List Char) : List Char :=
  let k := dedupe ((key.map Char.toUpper).map jToI)
  k ++ alphabet25.filter (fun c => !(k.contains c))

/-- Modelled from the spec: the digraph transform of section 4.2.  Same row:
right (encrypt) / left (decrypt) with wrap; same column: below (encrypt) /
above (decrypt) with wrap; rectangle: own row, other letter's column (its own
inverse).  Positions in the square are row-major, `pos = row * 5 + col`. -/
def pfPair (sq : List Char) (mode : CipherMode) (a b : Char) : Char × Char :=
  let pa := sq.indexOf a
  let pb := sq.indexOf b
  let ra := pa / 5
  let ca := pa % 5
  let rb := pb / 5
  let cb := pb % 5
  if ra = rb then
    match mode with
    | CipherMode.Encrypt => (sq.getD (ra * 5 + (ca + 1) % 5) 'A', sq.getD (rb * 5 + (cb + 1) % 5) 'A')
    | CipherMode.Decrypt => (sq.getD (ra * 5 + (ca + 4) % 5) 'A', sq.getD (rb * 5 + (cb + 4) % 5) 'A')
  else if ca = cb then
    match mode with
    | CipherMode.Encrypt => (sq.getD ((ra + 1) % 5 * 5 + ca) 'A', sq.getD ((rb + 1) % 5 * 5 + cb) 'A')
    | CipherMode.Decrypt => (sq.getD ((ra + 4) % 5 * 5 + ca) 'A', sq.getD ((rb + 4) % 5 * 5 + cb) 'A')
  else (sq.getD (ra * 5 + cb) 'A', sq.getD (rb * 5 + ca) 'A')

/-- Modelled from the spec: the doubled-letter filler of section 4.2.  The
filler is `X`; for a doubled `X` the repository's unit tests pin the filler to
`Q` (the spec's section 9 leaves the exact convention open as an implementer
choice, and the test expectations in `mpags-cipher.cpp`'s test file document
the choice made). -/
def fillerFor (a : Char) : Char := if a = 'X' then 'Q' else 'X'

/-- Modelled from the spec: doubled-pair breaking of section 4.2 — when a
pair's two letters are identical, insert the filler between them and re-pair
from that point forward. -/
def fixDoubles : List Char → List Char
  | [] => []
  | [a] => [a]
  | a :: b :: rest =>
    if a = b then a :: fillerFor a :: fixDoubles (b :: rest)
    else a :: b :: fixDoubles rest

/-- Modelled from the spec: the text canonicalization of section 4.2 — merge
`J` into `I`, break doubled pairs, and append the trailing filler `Z` when the
length is odd. -/
def pfPrep (text : List Char) : List Char :=
  let t := fixDoubles (text.map jToI)
  if t.length % 2 = 1 then t ++ ['Z'] else t

/-- Modelled from the spec: transform the prepared text digraph by digraph
(section 4.2). -/
def pfPairsApply (sq : List Char) (mode : CipherMode) : List Char → List Char
  | a :: b :: rest => (pfPair sq mode a b).1 :: (pfPair sq mode a b).2 :: pfPairsApply sq mode rest
  | l => l

/-- A text has no identical-letter digraph: the two letters of every aligned
pair differ.  The canonicalization guarantees this for the pairs it forms,
but the trailing `Z` padding can break it (a text whose fixed-up form ends in
`Z` at odd length pads to a doubled `ZZ` digraph). -/
def pairsDistinct : List Char → Bool
  | a :: b :: rest => (a != b) && pairsDistinct rest
  | _ => true

/-- Modelled from the spec: `PlayfairCipher::applyCipher` (section 4.2) —
canonicalize the text, then transform digraphs against the key square. -/
def playfairApply (key : List Char) (mode : CipherMode) (text : List Char) : List Char :=
  pfPairsApply (keySquare key) mode (pfPrep text)

/-! ## Cipher factory and key validation (spec sections 4.1-4.4) -/

/-- A constructed, validated cipher instance (spec section 3, "Cipher
instance"): a tagged variant holding its validated key. -/
inductive ProgCipher where
  | caesar (shift : Nat)
  | playfair (key : List Char)
  | vigenere (key : List Char)
deriving DecidableEq, Repr

deriving instance DecidableEq for Except

/-- The value of a digit string read in base 10 (`std::stoul` on an
all-digits string). -/
def digitsToNat (k : List Char) : Nat :=
  k.foldl (fun acc c => 10 * acc + (c.toNat - 48)) 0

/-- Modelled from the spec: the shift-key format check of section 4.1 — the
raw key string must represent a non-negative base-10 integer, i.e. be a
non-empty string of decimal digits (a sign or any other character rejects). -/
def caesarKeyOk (k : List Char) : Bool :=
  !k.isEmpty && k.all (fun c => c.isDigit)

/-- Modelled from the spec: the keyword format check of sections 4.2/4.3 —
letters only, non-empty. -/
def keywordOk (k : List Char) : Bool :=
  !k.isEmpty && k.all (fun c => c.isAlpha)

/-- Modelled from the spec: `cipherFactory` (section 4.4) — validate the raw
key for the requested kind and construct the cipher variant; an `Except.error`
models the `InvalidKey` exception of `Exceptions.hpp` (no instance is returned
on failure).  The shift integer is reduced modulo 26 for use (section 4.1). -/
def cipherFactory (t : CipherType) (key : List Char) : Except String ProgCipher :=
  match t with
  | CipherType.Caesar =>
    if caesarKeyOk key then Except.ok (ProgCipher.caesar (digitsToNat key % 26))
    else Except.error "InvalidKey: Caesar cipher key"
  | CipherType.Playfair =>
    if keywordOk key then Except.ok (ProgCipher.playfair key)
    else Except.error "InvalidKey: Playfair cipher key"
  | CipherType.Vigenere =>
    if keywordOk key then Except.ok (ProgCipher.vigenere key)
    else Except.error "InvalidKey: Vigenere cipher key"

/-- `Cipher::applyCipher` dispatched over the constructed variant (spec
sections 3 and 9: enum-dispatch over the three variants). -/
def progApply (c : ProgCipher) (mode : CipherMode) (text : List Char) : List Char :=
  match c with
  | ProgCipher.caesar s => caesarApply s mode text
  | ProgCipher.playfair k => playfairApply k mode text
  | ProgCipher.vigenere k => vigenereApply k mode text

/-! ## The chunked-parallel dispatcher (spec section 4.5)

Embedded from the driver sources.  `substr(pos, n)` on an in-range `pos`
returns at most `n` characters from `pos`, modelled by `take`/`drop`; the
out-of-range throw of `substr` is modelled by `substrE`. -/

/-- The fixed worker count of both drivers: `const size_t threadNum{12}`. -/
def threadNum : Nat := 12

/-- The even-split chunking loop shared by the older driver (for every cipher)
and the newer driver's Caesar branch: each iteration takes `chunkLength`
characters, plus one extra character while `extra` chunks still need to be one
longer.  `start` is the running chunk start, the last argument the remaining
iteration count. -/
def evenChunksLoop (text : List Char) (chunkLength : Nat) :
    Nat → Nat → Nat → List (List Char)
  | _, _, 0 => []
  | start, extra, k + 1 =>
    if extra > 0 then
      ((text.drop start).take chunkLength ++ (text.drop (start + chunkLength)).take 1)
        :: evenChunksLoop text chunkLength (start + chunkLength + 1) (extra - 1) k
    else
      (text.drop start).take chunkLength
        :: evenChunksLoop text chunkLength (start + chunkLength) extra k

/-- The even-split chunking of the driver sources: `chunkLength = len / n`,
with the remaining `len - n * chunkLength` characters handed one each to the
earliest chunks. -/
def evenChunks (text : List Char) (n : Nat) : List (List Char) :=
  evenChunksLoop text (text.length / n) 0 (text.length - n * (text.length / n)) n

/-- `std::string::substr(pos, n)`: throws `std::out_of_range` when
`pos > size()`, otherwise returns the at-most-`n` characters from `pos`. -/
def substrE (text : List Char) (pos n : Nat) : Except Unit (List Char) :=
  if pos > text.length then Except.error () else Except.ok ((text.drop pos).take n)

/-- The newer driver's Vigenere chunk length:
`(((inputText.length() / cipherKey.length()) / threadNum) + 1) * cipherKey.length()`. -/
def vigChunkLen (textLen keyLen n : Nat) : Nat :=
  (textLen / keyLen / n + 1) * keyLen

/-- The newer driver's Vigenere chunking loop: chunk `i` is
`substr(i * chunkLength, chunkLength)`, and a caught `std::out_of_range`
breaks the loop.  The last argument is the remaining iteration count. -/
def vigChunksLoop (text : List Char) (cl : Nat) : Nat → Nat → List (List Char)
  | _, 0 => []
  | i, k + 1 =>
    match substrE text (i * cl) cl with
    | Except.error _ => []
    | Except.ok chunk => chunk :: vigChunksLoop text cl (i + 1) k

/-- The newer driver's Vigenere chunking over `n` loop iterations. -/
def vigChunks (text : List Char) (keyLen n : Nat) : List (List Char) :=
  vigChunksLoop text (vigChunkLen text.length keyLen n) 0 n

/-- The texts passed to `applyCipher` by the newer driver, per cipher type:
Playfair gets one whole-text synchronous invocation; Caesar and Vigenere get
their chunk lists (one async invocation each).  `rawKeyLen` is
`settings.cipherKey.length()`. -/
def newDriverInvocations (t : CipherType) (rawKeyLen : Nat) (text : List Char) :
    List (List Char) :=
  match t with
  | CipherType.Playfair => [text]
  | CipherType.Caesar => evenChunks text threadNum
  | CipherType.Vigenere => vigChunks text rawKeyLen threadNum

/-- A completed asynchronous chunk computation: its (pure) result value and
the time at which its thread happened to finish.  The result of
`future.get()` is the value alone — a pure function of the submitted chunk —
whatever the finish time. -/
structure FutureModel where
  value : List Char
  finishTime : Nat
deriving DecidableEq, Repr

/-- The submission loop: `futures.push_back(std::async(doCipher, chunk))` in
chunk order; the future at submission index `i` holds the cipher output for
chunk `i` and an arbitrary finish time `finishTimes i`. -/
def submitChunks (c : ProgCipher) (mode : CipherMode) (finishTimes : Nat → Nat) :
    Nat → List (List Char) → List FutureModel
  | _, [] => []
  | i, ch :: rest =>
    ⟨progApply c mode ch, finishTimes i⟩ :: submitChunks c mode finishTimes (i + 1) rest

/-- The reassembly loop of both drivers: `outputText += futures.at(i).get()`
for `i = 0, 1, ...` in submission order. -/
def reassemble (futures : List FutureModel) : List Char :=
  futures.foldl (fun acc f => acc ++ f.value) []

/-- The newer driver's output: the Playfair branch is one synchronous
whole-text `applyCipher` call; the other branches submit the chunks and
reassemble the futures in submission order. -/
def newDriverOutput (t : CipherType) (c : ProgCipher) (rawKeyLen : Nat)
    (mode : CipherMode) (finishTimes : Nat → Nat) (text : List Char) : List Char :=
  match t with
  | CipherType.Playfair => progApply c mode text
  | _ => reassemble (submitChunks c mode finishTimes 0 (newDriverInvocations t rawKeyLen text))

/-- The older driver's output: uniform even-split chunking for every cipher
type, then reassembly in submission order. -/
def oldDriverOutput (c : ProgCipher) (mode : CipherMode) (finishTimes : Nat → Nat)
    (text : List Char) : List Char :=
  reassemble (submitChunks c mode finishTimes 0 (evenChunks text threadNum))

/-! ## The ready-polling loop (both drivers) -/

/-- The newer driver's flag: `bool allFuturesReady{true}`. -/
def newDriverReadyInit : Bool := true

/-- The older driver's flag: `int allFuturesReady{1}`. -/
def oldDriverReadyInit : Int := 1

/-- The newer driver's polling loop `while (!allFuturesReady) { ... }`,
counting executions of the body.  The body's effect on the flag (polling every
future with `wait_for`) is an arbitrary `step`; the loop is given `fuel`
because nothing in the source bounds it. -/
def pollIters (step : Bool → Bool) : Bool → Nat → Nat
  | _, 0 => 0
  | ready, fuel + 1 => if !ready then pollIters step (step ready) fuel + 1 else 0

/-- The older driver's polling loop: `!x` on an `int` holds exactly when
`x == 0`. -/
def pollItersInt (step : Int → Int) : Int → Nat → Nat
  | _, 0 => 0
  | ready, fuel + 1 => if ready = 0 then pollItersInt step (step ready) fuel + 1 else 0

/-! ## Test vectors (from the unit-test file bundled with `mpags-cipher.cpp`) -/

/-- The digraph test plaintext of the `Cipher encryption/decryption` test
case. -/
def pfTestPlain : List Char :=
  "BOBISSOMESORTOFJUNIORCOMPLEXXENOPHONEONEZEROTHING".toList

/-- The digraph test ciphertext of the `Cipher encryption/decryption` test
case. -/
def pfTestCipher : List Char :=
  "FHIQXLTLKLTLSUFNPQPKETFENIOLVSWLTFIAFTLAKOWATEQOKPPA".toList

/-- The canonicalized (filler-adjusted) digraph decryption expected by the
test case. -/
def pfTestCanon : List Char :=
  "BOBISXSOMESORTOFIUNIORCOMPLEXQXENOPHONEONEZEROTHINGZ".toList

/-- The polyalphabetic test plaintext of the `Cipher encryption/decryption`
test case. -/
def vigTestPlain : List Char :=
  "THISISQUITEALONGMESSAGESOTHEKEYWILLNEEDTOREPEATAFEWTIMES".toList

/-- The polyalphabetic test ciphertext of the `Cipher encryption/decryption`
test case. -/
def vigTestCipher : List Char :=
  "ALTDWZUFTHLEWZBNQPDGHKPDCALPVSFATWZUIPOHVVPASHXLQSDXTXSZ".toList

/-- The punctuation key `;[]'.` used by the key-exception test cases (written
character by character; `Char.ofNat 39` is the apostrophe). -/
def punctKey : List Char := [';', '[', ']', Char.ofNat 39, '.']

/-! ## Character-level lemmas -/

/-- The code of `Char.ofNat` on an uppercase-letter code is that code. -/
lemma toNat_ofNat_upper (y : Nat) (hy : y < 26) :
    (Char.ofNat (letterA + y)).toNat = letterA + y := by
  have h : ∀ z : Fin 26, (Char.ofNat (letterA + z.val)).toNat = letterA + z.val := by decide
  exact h ⟨y, hy⟩

/-- `Char.ofNat` of an uppercase-letter code is an uppercase letter. -/
lemma isUpperAlpha_ofNat (y : Nat) (hy : y < 26) :
    isUpperAlpha (Char.ofNat (letterA + y)) := by
  constructor <;> rw [toNat_ofNat_upper y hy] <;> unfold letterA <;> omega

/-- Decrypting with the same shift undoes encrypting, character by character
(non-letters pass through both ways). -/
lemma shiftChar_roundtrip (s : Nat) (c : Char) :
    shiftChar s CipherMode.Decrypt (shiftChar s CipherMode.Encrypt c) = c := by
  by_cases hc : isUpperAlpha c
  · have h1 : letterA ≤ c.toNat := hc.1
    have h2 : c.toNat ≤ 90 := hc.2
    have hr : (c.toNat - letterA + s) % 26 < 26 := Nat.mod_lt _ (by omega)
    have henc : shiftChar s CipherMode.Encrypt c
        = Char.ofNat (letterA + (c.toNat - letterA + s) % 26) := by
      simp [shiftChar, hc]
    rw [henc]
    have hup := isUpperAlpha_ofNat _ hr
    have htn := toNat_ofNat_upper _ hr
    have hdec : shiftChar s CipherMode.Decrypt (Char.ofNat (letterA + (c.toNat - letterA + s) % 26))
        = Char.ofNat (letterA +
            ((Char.ofNat (letterA + (c.toNat - letterA + s) % 26)).toNat - letterA
              + (26 - s % 26)) % 26) := by
      simp [shiftChar, hup]
    rw [hdec, htn]
    have harith : letterA + (letterA + (c.toNat - letterA + s) % 26 - letterA + (26 - s % 26)) % 26
        = c.toNat := by
      simp only [letterA] at h1 ⊢
      omega
    rw [harith, Char.ofNat_toNat]
  · simp [shiftChar, hc]

/-- Caesar round-trip on whole texts. -/
lemma caesarApply_roundtrip (s : Nat) (text : List Char) :
    caesarApply s CipherMode.Decrypt (caesarApply s CipherMode.Encrypt text) = text := by
  induction text with
  | nil => rfl
  | cons c t ih =>
    simp only [caesarApply, List.map_cons] at ih ⊢
    rw [shiftChar_roundtrip]
    exact congrArg (List.cons c) ih

/-- Vigenere round-trip, at every starting stream position. -/
lemma vigenereGo_roundtrip (key : List Char) (text : List Char) :
    ∀ i, vigenereGo key CipherMode.Decrypt i (vigenereGo key CipherMode.Encrypt i text) = text := by
  induction text with
  | nil => intro i; rfl
  | cons c t ih => intro i; simp [vigenereGo, shiftChar_roundtrip, ih]

/-! ## Even-split chunking lemmas -/

/-- The even-split loop always produces one chunk per iteration. -/
lemma evenChunksLoop_length (text : List Char) (cl : Nat) :
    ∀ k start extra, (evenChunksLoop text cl start extra k).length = k := by
  intro k
  induction k with
  | zero => intro start extra; rfl
  | succ k ih =>
    intro start extra
    by_cases h : extra > 0 <;> simp [evenChunksLoop, h, ih]

/-- In-order concatenation of the even-split loop's chunks gives back the
text from `start` on, provided the iterations left exactly cover it. -/
lemma evenChunksLoop_flatten (text : List Char) (cl : Nat) :
    ∀ k start extra, extra ≤ k → start + k * cl + extra = text.length →
      (evenChunksLoop text cl start extra k).flatten = text.drop start := by
  intro k
  induction k with
  | zero =>
    intro start extra hle hsum
    have : text.length ≤ start := by omega
    simp [evenChunksLoop, List.drop_eq_nil_iff.mpr this]
  | succ k ih =>
    intro start extra hle hsum
    have hmul : (k + 1) * cl = k * cl + cl := by ring
    by_cases h : extra > 0
    · have hrest := ih (start + cl + 1) (extra - 1) (by omega) (by omega)
      simp only [evenChunksLoop, if_pos h, List.flatten_cons, hrest]
      have hd1 : text.drop (start + cl) = (text.drop start).drop cl := by
        rw [List.drop_drop]
      have hd2 : text.drop (start + cl + 1) = ((text.drop start).drop cl).drop 1 := by
        rw [List.drop_drop, List.drop_drop]
        congr 1
      rw [hd1, hd2, List.append_assoc, List.take_append_drop, List.take_append_drop]
    · have hrest := ih (start + cl) extra (by omega) (by omega)
      simp only [evenChunksLoop, if_neg h, List.flatten_cons, hrest]
      have hd1 : text.drop (start + cl) = (text.drop start).drop cl := by
        rw [List.drop_drop]
      rw [hd1, List.take_append_drop]

/-- The length of chunk `i` of the even-split loop: `cl + 1` for the first
`extra` chunks, `cl` afterwards. -/
lemma evenChunksLoop_chunk_length (text : List Char) (cl : Nat) :
    ∀ k start extra, extra ≤ k → start + k * cl + extra = text.length →
      ∀ i, i < k →
        ((evenChunksLoop text cl start extra k).map List.length).get? i =
          some (if i < extra then cl + 1 else cl) := by
  intro k
  induction k with
  | zero => intro start extra _ _ i hi; omega
  | succ k ih =>
    intro start extra hle hsum i hi
    have hmul : (k + 1) * cl = k * cl + cl := by ring
    by_cases h : extra > 0
    · simp only [evenChunksLoop, if_pos h, List.map_cons]
      match i with
      | 0 =>
        simp only [List.get?_cons_zero, if_pos h]
        have hlen1 : ((text.drop start).take cl).length = cl := by
          simp only [List.length_take, List.length_drop]
          omega
        have hlen2 : ((text.drop (start + cl)).take 1).length = 1 := by
          simp only [List.length_take, List.length_drop]
          omega
        simp [hlen1, hlen2]
      | i + 1 =>
        simp only [List.get?_cons_succ]
        rw [ih (start + cl + 1) (extra - 1) (by omega) (by omega) i (by omega)]
        congr 1
        by_cases hx : i + 1 < extra
        · rw [if_pos hx, if_pos (by omega)]
        · rw [if_neg hx, if_neg (by omega)]
    · simp only [evenChunksLoop, if_neg h, List.map_cons]
      match i with
      | 0 =>
        simp only [List.get?_cons_zero, if_neg (by omega : ¬ (0 : Nat) < extra)]
        have hlen1 : ((text.drop start).take cl).length = cl := by
          simp only [List.length_take, List.length_drop]
          omega
        simp [hlen1]
      | i + 1 =>
        simp only [List.get?_cons_succ]
        rw [ih (start + cl) extra (by omega) (by omega) i (by omega)]
        have hz : extra = 0 := by omega
        simp [hz]

/-- The top-level invariant instantiation for `evenChunks`. -/
lemma evenChunks_invariant (text : List Char) (n : Nat) (hn : 0 < n) :
    text.length - n * (text.length / n) ≤ n ∧
    0 + n * (text.length / n) + (text.length - n * (text.length / n)) = text.length ∧
    text.length - n * (text.length / n) = text.length % n := by
  have h1 := Nat.div_add_mod text.length n
  have h2 := Nat.mod_lt text.length hn
  omega

/-- In-order concatenation of the even-split chunks is the whole text. -/
lemma evenChunks_flatten (text : List Char) (n : Nat) (hn : 0 < n) :
    (evenChunks text n).flatten = text := by
  obtain ⟨ha, hb, _⟩ := evenChunks_invariant text n hn
  unfold evenChunks
  rw [evenChunksLoop_flatten text (text.length / n) n 0 _ (by omega) (by omega)]
  rfl

/-! ## Vigenere phase and chunking lemmas -/

/-- The per-position key shift depends only on the position modulo the key
length, so two streams in the same phase transform identically. -/
lemma vigenereGo_phase (key : List Char) (mode : CipherMode) (text : List Char) :
    ∀ i j, i % key.length = j % key.length →
      vigenereGo key mode i text = vigenereGo key mode j text := by
  induction text with
  | nil => intro i j _; rfl
  | cons c t ih =>
    intro i j hij
    have hs : keyShiftAt key i = keyShiftAt key j := by
      unfold keyShiftAt
      rw [hij]
    have hnext : (i + 1) % key.length = (j + 1) % key.length := by
      rw [Nat.add_mod i 1, Nat.add_mod j 1, hij]
    simp only [vigenereGo, hs, ih (i + 1) (j + 1) hnext]

/-- `vigenereGo` distributes over append, the second part picking up the
stream position after the first. -/
lemma vigenereGo_append (key : List Char) (mode : CipherMode) (a : List Char) :
    ∀ b i, vigenereGo key mode i (a ++ b) =
      vigenereGo key mode i a ++ vigenereGo key mode (i + a.length) b := by
  induction a with
  | nil => intro b i; simp [vigenereGo]
  | cons c t ih =>
    intro b i
    simp only [List.cons_append, vigenereGo, List.length_cons, List.append_eq]
    rw [ih b (i + 1)]
    have harith : i + 1 + t.length = i + (t.length + 1) := by omega
    rw [harith]

/-- A chunk length that is a multiple of the key length keeps every chunk
start in phase 0. -/
lemma mul_chunkLen_mod (L cl i : Nat) (hcl : cl % L = 0) : (i * cl) % L = 0 := by
  obtain ⟨m, hm⟩ := Nat.dvd_of_mod_eq_zero hcl
  have : i * cl = i * m * L := by rw [hm]; ring
  rw [this, Nat.mul_mod_left]

/-- The Vigenere chunk loop produces at most one chunk per iteration. -/
lemma vigChunksLoop_length_le (text : List Char) (cl : Nat) :
    ∀ k i, (vigChunksLoop text cl i k).length ≤ k := by
  intro k
  induction k with
  | zero => intro i; simp [vigChunksLoop]
  | succ k ih =>
    intro i
    unfold vigChunksLoop substrE
    by_cases h : i * cl > text.length
    · simp [h]
    · simpa [h] using Nat.succ_le_succ (ih (i + 1))

/-- Chunk `j` of the Vigenere chunk loop started at iteration `i` is the
`cl`-character substring at offset `(i + j) * cl`, and that offset was in
range for `substr`. -/
lemma vigChunksLoop_get? (text : List Char) (cl : Nat) :
    ∀ k i j, j < (vigChunksLoop text cl i k).length →
      (vigChunksLoop text cl i k).get? j = some ((text.drop ((i + j) * cl)).take cl) ∧
        (i + j) * cl ≤ text.length := by
  intro k
  induction k with
  | zero => intro i j hj; simp [vigChunksLoop] at hj
  | succ k ih =>
    intro i j hj
    unfold vigChunksLoop substrE at hj ⊢
    by_cases h : i * cl > text.length
    · simp [h] at hj
    · simp only [h, if_neg, ite_false, gt_iff_lt, not_lt] at hj ⊢
      match j with
      | 0 =>
        have hz : (i + 0) * cl = i * cl := by ring
        refine ⟨by simp, ?_⟩
        omega
      | j + 1 =>
        simp only [List.get?_cons_succ, List.length_cons] at hj ⊢
        have := ih (i + 1) j (by omega)
        have harith : i + 1 + j = i + (j + 1) := by omega
        rw [harith] at this
        exact this

/-- Concatenating the Vigenere chunks in order restores the text from offset
`i * cl`, provided the remaining iterations can cover it. -/
lemma vigChunksLoop_flatten (text : List Char) (cl : Nat) :
    ∀ k i, text.length ≤ i * cl + k * cl →
      (vigChunksLoop text cl i k).flatten = text.drop (i * cl) := by
  intro k
  induction k with
  | zero =>
    intro i hcov
    simp only [Nat.zero_mul, Nat.add_zero] at hcov
    simp [vigChunksLoop, List.drop_eq_nil_iff.mpr hcov]
  | succ k ih =>
    intro i hcov
    unfold vigChunksLoop substrE
    by_cases h : i * cl > text.length
    · simp only [h, ite_true, gt_iff_lt]
      simp [List.drop_eq_nil_iff.mpr (by omega : text.length ≤ i * cl)]
    · have hmul1 : (i + 1) * cl = i * cl + cl := by ring
      have hmul2 : (k + 1) * cl = k * cl + cl := by ring
      have hrest := ih (i + 1) (by omega)
      simp only [h, ite_false, gt_iff_lt, List.flatten_cons, hrest]
      have hd : text.drop ((i + 1) * cl) = (text.drop (i * cl)).drop cl := by
        rw [List.drop_drop]
        congr 1
      rw [hd, List.take_append_drop]

/-- Applying the Vigenere cipher to each chunk independently, each restarting
its key cycle at index 0, and concatenating in order, matches the sequential
key stream over the text — because every chunk offset `i * cl` is a multiple
of the key length. -/
lemma vigChunksLoop_apply_flatten (K : List Char) (mode : CipherMode) (text : List Char)
    (cl : Nat) (hcl : cl % K.length = 0) :
    ∀ k i, text.length ≤ i * cl + k * cl →
      ((vigChunksLoop text cl i k).map (vigenereGo K mode 0)).flatten
        = vigenereGo K mode (i * cl) (text.drop (i * cl)) := by
  intro k
  induction k with
  | zero =>
    intro i hcov
    have hnil : text.drop (i * cl) = [] := by
      apply List.drop_eq_nil_iff.mpr
      have hz : (0 : Nat) * cl = 0 := by ring
      omega
    simp [vigChunksLoop, hnil, vigenereGo]
  | succ k ih =>
    intro i hcov
    unfold vigChunksLoop substrE
    by_cases h : i * cl > text.length
    · have hnil : text.drop (i * cl) = [] := List.drop_eq_nil_iff.mpr (by omega)
      simp [h, hnil, vigenereGo]
    · have hmul1 : (i + 1) * cl = i * cl + cl := by ring
      have hmul2 : (k + 1) * cl = k * cl + cl := by ring
      have hrest := ih (i + 1) (by omega)
      simp only [h, ite_false, gt_iff_lt, List.map_cons, List.flatten_cons, hrest]
      have hphase : vigenereGo K mode 0 ((text.drop (i * cl)).take cl)
          = vigenereGo K mode (i * cl) ((text.drop (i * cl)).take cl) := by
        apply vigenereGo_phase
        rw [Nat.zero_mod, mul_chunkLen_mod K.length cl i hcl]
      rw [hphase]
      have hsplit : text.drop (i * cl)
          = (text.drop (i * cl)).take cl ++ (text.drop (i * cl)).drop cl :=
        (List.take_append_drop cl _).symm
      conv_rhs => rw [hsplit]
      rw [vigenereGo_append]
      congr 1
      have hdd : (text.drop (i * cl)).drop cl = text.drop ((i + 1) * cl) := by
        rw [List.drop_drop]
        congr 1
        omega
      rw [← hdd]
      by_cases hc2 : (i + 1) * cl ≤ text.length
      · have hlen : ((text.drop (i * cl)).take cl).length = cl := by
          simp only [List.length_take, List.length_drop]
          omega
        rw [hlen, hmul1]
      · have hzero : (text.drop (i * cl)).drop cl = [] := by
          rw [hdd]
          exact List.drop_eq_nil_iff.mpr (by omega)
        rw [hzero]
        simp [vigenereGo]

/-- The twelve chunks of the Vigenere dispatch cover the whole text: with
`cl = (len / L / n + 1) * L` and `n` loop iterations, `n * cl` exceeds the
text length. -/
lemma vigChunks_coverage (len L n : Nat) (hL : 0 < L) (hn : 0 < n) :
    len ≤ 0 * vigChunkLen len L n + n * vigChunkLen len L n := by
  have hd1 := Nat.div_add_mod len L
  have hm1 := Nat.mod_lt len hL
  have hd2 := Nat.div_add_mod (len / L) n
  have hm2 := Nat.mod_lt (len / L) hn
  have h3 : len / L + 1 ≤ (len / L / n + 1) * n := by
    have hexp : (len / L / n + 1) * n = n * (len / L / n) + n := by ring
    omega
  have h4 : (len / L + 1) * L ≤ (len / L / n + 1) * n * L :=
    Nat.mul_le_mul_right L h3
  have h5 : len < (len / L + 1) * L := by
    have hexp : (len / L + 1) * L = L * (len / L) + L := by ring
    omega
  have h6 : (len / L / n + 1) * n * L = n * vigChunkLen len L n := by
    unfold vigChunkLen
    ring
  omega

/-- The chunk length of the Vigenere dispatch is a multiple of the key
length. -/
lemma vigChunkLen_mod (len L n : Nat) : vigChunkLen len L n % L = 0 := by
  unfold vigChunkLen
  exact Nat.mul_mod_left _ _

/-- Chunk-wise Vigenere application over the newer driver's chunking equals
whole-text application. -/
lemma vigChunks_apply_flatten (key : List Char) (mode : CipherMode) (text : List Char)
    (n : Nat) (hk : key ≠ []) (hn : 0 < n) :
    ((vigChunks text key.length n).map (vigenereApply key mode)).flatten
      = vigenereApply key mode text := by
  have hL : 0 < key.length := List.length_pos.mpr hk
  have hKlen : (key.map Char.toUpper).length = key.length := List.length_map _ _
  have hcl : vigChunkLen text.length key.length n % (key.map Char.toUpper).length = 0 := by
    rw [hKlen]
    exact vigChunkLen_mod _ _ _
  have hcov := vigChunks_coverage text.length key.length n hL hn
  have hmain := vigChunksLoop_apply_flatten (key.map Char.toUpper) mode text
    (vigChunkLen text.length key.length n) hcl n 0 (by omega)
  have hz : (0 : Nat) * vigChunkLen text.length key.length n = 0 := by ring
  rw [hz] at hmain
  simpa [vigChunks, vigenereApply] using hmain

/-! ## Reassembly lemmas -/

/-- The reassembly fold with a running accumulator. -/
lemma reassemble_foldl_aux :
    ∀ (l : List FutureModel) (acc : List Char),
      l.foldl (fun acc f => acc ++ f.value) acc = acc ++ (l.map FutureModel.value).flatten := by
  intro l
  induction l with
  | nil => intro acc; simp
  | cons f t ih => intro acc; simp [List.foldl_cons, ih]

/-- The futures' values, in submission order, are the per-chunk cipher
outputs in chunk order (whatever the finish times). -/
lemma submitChunks_values (c : ProgCipher) (mode : CipherMode) (ft : Nat → Nat) :
    ∀ (chunks : List (List Char)) (i : Nat),
      (submitChunks c mode ft i chunks).map FutureModel.value = chunks.map (progApply c mode) := by
  intro chunks
  induction chunks with
  | nil => intro i; rfl
  | cons ch t ih => intro i; simp [submitChunks, ih]

/-- One future is submitted per chunk. -/
lemma submitChunks_length (c : ProgCipher) (mode : CipherMode) (ft : Nat → Nat) :
    ∀ (chunks : List (List Char)) (i : Nat),
      (submitChunks c mode ft i chunks).length = chunks.length := by
  intro chunks
  induction chunks with
  | nil => intro i; rfl
  | cons ch t ih => intro i; simp [submitChunks, ih]

/-- Reassembling the futures in submission order concatenates the per-chunk
cipher outputs in chunk order. -/
lemma reassemble_submitChunks (c : ProgCipher) (mode : CipherMode) (ft : Nat → Nat)
    (chunks : List (List Char)) (i : Nat) :
    reassemble (submitChunks c mode ft i chunks) = (chunks.map (progApply c mode)).flatten := by
  unfold reassemble
  rw [reassemble_foldl_aux, submitChunks_values]
  simp

/-- Chunk-wise Caesar application over the even-split chunking equals
whole-text application (the Caesar transform is per-character). -/
lemma evenChunks_caesar_flatten (s : Nat) (mode : CipherMode) (text : List Char)
    (n : Nat) (hn : 0 < n) :
    ((evenChunks text n).map (caesarApply s mode)).flatten = caesarApply s mode text := by
  have h := evenChunks_flatten text n hn
  calc ((evenChunks text n).map (caesarApply s mode)).flatten
      = ((evenChunks text n).map (List.map (shiftChar s mode))).flatten := rfl
    _ = ((evenChunks text n).flatten).map (shiftChar s mode) := (List.map_flatten _ _).symm
    _ = caesarApply s mode text := by rw [h]; rfl

/-- The validators characterized as propositions. -/
lemma caesarKeyOk_iff (k : List Char) :
    caesarKeyOk k = true ↔ (k ≠ [] ∧ ∀ c ∈ k, c.isDigit = true) := by
  simp [caesarKeyOk, List.isEmpty_iff]

/-- The keyword validator characterized as a proposition. -/
lemma keywordOk_iff (k : List Char) :
    keywordOk k = true ↔ (k ≠ [] ∧ ∀ c ∈ k, c.isAlpha = true) := by
  simp [keywordOk, List.isEmpty_iff]

/-! ## Playfair square and round-trip lemmas -/

/-- A character code bounded by `isUpper`. -/
lemma isUpper_toNat (c : Char) (h : c.isUpper = true) : 65 ≤ c.toNat ∧ c.toNat ≤ 90 := by
  simp only [Char.isUpper, ge_iff_le, Bool.and_eq_true, decide_eq_true_eq] at h
  obtain ⟨h1, h2⟩ := h
  rw [UInt32.le_def, BitVec.le_def] at h1 h2
  exact ⟨h1, h2⟩

/-- A character code bounded by `isLower`. -/
lemma isLower_toNat (c : Char) (h : c.isLower = true) : 97 ≤ c.toNat ∧ c.toNat ≤ 122 := by
  simp only [Char.isLower, ge_iff_le, Bool.and_eq_true, decide_eq_true_eq] at h
  obtain ⟨h1, h2⟩ := h
  rw [UInt32.le_def, BitVec.le_def] at h1 h2
  exact ⟨h1, h2⟩

/-- Case-folding a letter yields an uppercase letter. -/
lemma toUpper_isUpperAlpha (c : Char) (h : c.isAlpha = true) : isUpperAlpha c.toUpper := by
  have ht : c.toUpper
      = if c.toNat ≥ 97 ∧ c.toNat ≤ 122 then Char.ofNat (c.toNat - 32) else c := rfl
  simp only [Char.isAlpha, Bool.or_eq_true] at h
  rcases h with h | h
  · obtain ⟨h1, h2⟩ := isUpper_toNat c h
    rw [ht, if_neg (by omega)]
    exact ⟨by simpa [letterA] using h1, h2⟩
  · obtain ⟨h1, h2⟩ := isLower_toNat c h
    rw [ht, if_pos (by omega)]
    have he : c.toNat - 32 = letterA + (c.toNat - 97) := by
      simp only [letterA]
      omega
    rw [he]
    exact isUpperAlpha_ofNat _ (by omega)

/-- Every uppercase letter other than `J` is in the 25-letter alphabet. -/
lemma mem_alphabet25_of_upper (c : Char) (h : isUpperAlpha c) (hj : c ≠ 'J') :
    c ∈ alphabet25 := by
  have hy : ∀ y : Fin 26, 65 + y.val ≠ 74 → Char.ofNat (65 + y.val) ∈ alphabet25 := by decide
  obtain ⟨h1, h2⟩ := h
  simp only [letterA] at h1
  have hcn : 65 + (c.toNat - 65) = c.toNat := by omega
  have hc : c = Char.ofNat (65 + (c.toNat - 65)) := by rw [hcn, Char.ofNat_toNat]
  have hne : 65 + (c.toNat - 65) ≠ 74 := by
    intro hcontra
    apply hj
    rw [hc, hcontra]
  have := hy ⟨c.toNat - 65, by omega⟩ hne
  rw [hc]
  exact this

/-- The `J`-merge of an uppercase letter lies in the 25-letter alphabet. -/
lemma jToI_mem_alphabet25 (c : Char) (h : isUpperAlpha c) : jToI c ∈ alphabet25 := by
  unfold jToI
  by_cases hc : c = 'J'
  · rw [if_pos hc]
    decide
  · rw [if_neg hc]
    exact mem_alphabet25_of_upper c h hc

/-- The 25-letter alphabet has no duplicates. -/
lemma alphabet25_nodup : alphabet25.Nodup := by decide

/-- The 25-letter alphabet does not contain `J`. -/
lemma alphabet25_ne_J : ∀ c ∈ alphabet25, c ≠ 'J' := by decide

/-- `contains` agrees with membership for characters. -/
lemma contains_iff_mem_char (l : List Char) (c : Char) : l.contains c = true ↔ c ∈ l := by
  simp [List.contains_iff_exists_mem_beq, beq_iff_eq]

/-- Every output of the de-duplication pass comes from its input. -/
lemma dedupeAux_subset : ∀ (l seen : List Char) (c : Char), c ∈ dedupeAux l seen → c ∈ l := by
  intro l
  induction l with
  | nil => intro seen c hc; simp [dedupeAux] at hc
  | cons a rest ih =>
    intro seen c hc
    unfold dedupeAux at hc
    by_cases h : seen.contains a
    · rw [if_pos h] at hc
      exact List.mem_cons_of_mem a (ih seen c hc)
    · rw [if_neg h] at hc
      rcases List.mem_cons.mp hc with rfl | hc2
      · exact List.mem_cons_self _ _
      · exact List.mem_cons_of_mem a (ih (a :: seen) c hc2)

/-- No output of the de-duplication pass lies in the seen-set. -/
lemma dedupeAux_not_mem_seen :
    ∀ (l seen : List Char) (c : Char), c ∈ dedupeAux l seen → c ∉ seen := by
  intro l
  induction l with
  | nil => intro seen c hc; simp [dedupeAux] at hc
  | cons a rest ih =>
    intro seen c hc
    unfold dedupeAux at hc
    by_cases h : seen.contains a
    · rw [if_pos h] at hc
      exact ih seen c hc
    · rw [if_neg h] at hc
      rcases List.mem_cons.mp hc with rfl | hc2
      · intro hmem
        exact h ((contains_iff_mem_char seen c).mpr hmem)
      · intro hmem
        exact ih (a :: seen) c hc2 (List.mem_cons_of_mem a hmem)

/-- The de-duplication pass produces a duplicate-free list. -/
lemma dedupeAux_nodup : ∀ (l seen : List Char), (dedupeAux l seen).Nodup := by
  intro l
  induction l with
  | nil => intro seen; simp [dedupeAux]
  | cons a rest ih =>
    intro seen
    unfold dedupeAux
    by_cases h : seen.contains a
    · rw [if_pos h]
      exact ih seen
    · rw [if_neg h]
      refine List.nodup_cons.mpr ⟨?_, ih (a :: seen)⟩
      intro hmem
      exact dedupeAux_not_mem_seen rest (a :: seen) a hmem (List.mem_cons_self _ _)

/-- The deduplicated, case-folded, `J`-merged keyword letters all lie in the
25-letter alphabet. -/
lemma dedupe_key_mem_alphabet25 (key : List Char) (hk : keywordOk key = true) :
    ∀ c ∈ dedupe ((key.map Char.toUpper).map jToI), c ∈ alphabet25 := by
  intro c hc
  have hsub := dedupeAux_subset _ [] c hc
  obtain ⟨b, hb, rfl⟩ := List.mem_map.mp hsub
  obtain ⟨d, hd, rfl⟩ := List.mem_map.mp hb
  have halpha := ((keywordOk_iff key).mp hk).2 d hd
  exact jToI_mem_alphabet25 _ (toUpper_isUpperAlpha d halpha)

/-- Every key square entry lies in the 25-letter alphabet. -/
lemma keySquare_subset (key : List Char) (hk : keywordOk key = true) :
    ∀ c ∈ keySquare key, c ∈ alphabet25 := by
  intro c hc
  simp only [keySquare] at hc
  rcases List.mem_append.mp hc with hd | hf
  · exact dedupe_key_mem_alphabet25 key hk c hd
  · exact (List.mem_filter.mp hf).1

/-- The key square has no duplicate letters. -/
lemma keySquare_nodup (key : List Char) : (keySquare key).Nodup := by
  simp only [keySquare]
  apply List.Nodup.append
  · exact dedupeAux_nodup _ _
  · exact List.Nodup.filter _ alphabet25_nodup
  · intro c hc hcf
    have hpred := (List.mem_filter.mp hcf).2
    simp only [Bool.not_eq_true'] at hpred
    have hmem := (contains_iff_mem_char _ c).mpr hc
    rw [hpred] at hmem
    exact Bool.noConfusion hmem

/-- Every letter of the 25-letter alphabet appears in the key square. -/
lemma keySquare_complete (key : List Char) : ∀ c ∈ alphabet25, c ∈ keySquare key := by
  intro c hc
  simp only [keySquare]
  by_cases hd : c ∈ dedupe ((key.map Char.toUpper).map jToI)
  · exact List.mem_append_left _ hd
  · refine List.mem_append_right _ (List.mem_filter.mpr ⟨hc, ?_⟩)
    simp only [Bool.not_eq_true']
    have : ¬ ((dedupe ((key.map Char.toUpper).map jToI)).contains c = true) :=
      fun hcontra => hd ((contains_iff_mem_char _ c).mp hcontra)
    simp only [Bool.not_eq_true] at this
    exact this

/-- The key square has exactly 25 entries: the deduplicated keyword letters
plus the remaining alphabet letters partition the 25-letter alphabet. -/
lemma keySquare_length (key : List Char) (hk : keywordOk key = true) :
    (keySquare key).length = 25 := by
  have hdn : (dedupe ((key.map Char.toUpper).map jToI)).Nodup := dedupeAux_nodup _ _
  have hdsub := dedupe_key_mem_alphabet25 key hk
  have hperm1 : List.Perm
      (alphabet25.filter (fun c => (dedupe ((key.map Char.toUpper).map jToI)).contains c))
      (dedupe ((key.map Char.toUpper).map jToI)) := by
    apply List.perm_of_nodup_nodup_toFinset_eq (List.Nodup.filter _ alphabet25_nodup) hdn
    ext c
    simp only [List.mem_toFinset, List.mem_filter, contains_iff_mem_char]
    exact ⟨fun h => h.2, fun h => ⟨hdsub c h, h⟩⟩
  have hperm2 := List.filter_append_perm
    (fun c => (dedupe ((key.map Char.toUpper).map jToI)).contains c) alphabet25
  have hlen2 := hperm2.length_eq
  have hlen1 := hperm1.length_eq
  have ha25 : alphabet25.length = 25 := by decide
  simp only [List.length_append] at hlen2
  simp only [keySquare, List.length_append]
  omega

/-- `getD` agrees with `get` in bounds. -/
lemma getD_eq_get_char (sq : List Char) (p : Nat) (hp : p < sq.length) :
    sq.getD p 'A' = sq.get ⟨p, hp⟩ := by
  simp [List.getD_eq_getElem?_getD, List.getElem?_eq_getElem hp]

/-- In a duplicate-free list, the index of the entry at `p` is `p`. -/
lemma indexOf_get_self (sq : List Char) (hnd : sq.Nodup) (p : Nat) (hp : p < sq.length) :
    sq.indexOf (sq.get ⟨p, hp⟩) = p := by
  have hmem := List.get_mem sq p hp
  have h1 : sq.indexOf (sq.get ⟨p, hp⟩) < sq.length := List.indexOf_lt_length.mpr hmem
  have h2 : sq.get ⟨sq.indexOf (sq.get ⟨p, hp⟩), h1⟩ = sq.get ⟨p, hp⟩ := List.indexOf_get h1
  have := (List.Nodup.get_inj_iff hnd).mp h2
  exact congrArg Fin.val this

/-- Distinct in-bounds positions of a duplicate-free list hold distinct
entries. -/
lemma get_ne_of_idx_ne (sq : List Char) (hnd : sq.Nodup) (p q : Nat)
    (hp : p < sq.length) (hq : q < sq.length) (hne : p ≠ q) :
    sq.get ⟨p, hp⟩ ≠ sq.get ⟨q, hq⟩ := by
  intro h
  exact hne (congrArg Fin.val ((List.Nodup.get_inj_iff hnd).mp h))

/-- The same-row encryption branch of the digraph transform. -/
lemma pfPair_row_enc (sq : List Char) (a b : Char) (h : sq.indexOf a / 5 = sq.indexOf b / 5) :
    pfPair sq CipherMode.Encrypt a b
      = (sq.getD (sq.indexOf a / 5 * 5 + (sq.indexOf a % 5 + 1) % 5) 'A',
         sq.getD (sq.indexOf b / 5 * 5 + (sq.indexOf b % 5 + 1) % 5) 'A') := by
  simp only [pfPair, if_pos h]

/-- The same-row decryption branch of the digraph transform. -/
lemma pfPair_row_dec (sq : List Char) (a b : Char) (h : sq.indexOf a / 5 = sq.indexOf b / 5) :
    pfPair sq CipherMode.Decrypt a b
      = (sq.getD (sq.indexOf a / 5 * 5 + (sq.indexOf a % 5 + 4) % 5) 'A',
         sq.getD (sq.indexOf b / 5 * 5 + (sq.indexOf b % 5 + 4) % 5) 'A') := by
  simp only [pfPair, if_pos h]

/-- The same-column encryption branch of the digraph transform. -/
lemma pfPair_col_enc (sq : List Char) (a b : Char)
    (h : ¬ sq.indexOf a / 5 = sq.indexOf b / 5) (h2 : sq.indexOf a % 5 = sq.indexOf b % 5) :
    pfPair sq CipherMode.Encrypt a b
      = (sq.getD ((sq.indexOf a / 5 + 1) % 5 * 5 + sq.indexOf a % 5) 'A',
         sq.getD ((sq.indexOf b / 5 + 1) % 5 * 5 + sq.indexOf b % 5) 'A') := by
  simp only [pfPair, if_neg h, if_pos h2]

/-- The same-column decryption branch of the digraph transform. -/
lemma pfPair_col_dec (sq : List Char) (a b : Char)
    (h : ¬ sq.indexOf a / 5 = sq.indexOf b / 5) (h2 : sq.indexOf a % 5 = sq.indexOf b % 5) :
    pfPair sq CipherMode.Decrypt a b
      = (sq.getD ((sq.indexOf a / 5 + 4) % 5 * 5 + sq.indexOf a % 5) 'A',
         sq.getD ((sq.indexOf b / 5 + 4) % 5 * 5 + sq.indexOf b % 5) 'A') := by
  simp only [pfPair, if_neg h, if_pos h2]

/-- The rectangle branch of the digraph transform, identical in both modes. -/
lemma pfPair_rect (sq : List Char) (mode : CipherMode) (a b : Char)
    (h : ¬ sq.indexOf a / 5 = sq.indexOf b / 5) (h2 : ¬ sq.indexOf a % 5 = sq.indexOf b % 5) :
    pfPair sq mode a b
      = (sq.getD (sq.indexOf a / 5 * 5 + sq.indexOf b % 5) 'A',
         sq.getD (sq.indexOf b / 5 * 5 + sq.indexOf a % 5) 'A') := by
  simp only [pfPair, if_neg h, if_neg h2]

/-- Decrypting a digraph undoes encrypting it, over any 25-entry
duplicate-free square; the two encrypted letters are square entries and
differ. -/
lemma pfPair_inverse (sq : List Char) (hlen : sq.length = 25) (hnd : sq.Nodup)
    (a b : Char) (ha : a ∈ sq) (hb : b ∈ sq) (hab : a ≠ b) :
    (pfPair sq CipherMode.Encrypt a b).1 ∈ sq ∧
    (pfPair sq CipherMode.Encrypt a b).2 ∈ sq ∧
    (pfPair sq CipherMode.Encrypt a b).1 ≠ (pfPair sq CipherMode.Encrypt a b).2 ∧
    pfPair sq CipherMode.Decrypt (pfPair sq CipherMode.Encrypt a b).1
      (pfPair sq CipherMode.Encrypt a b).2 = (a, b) := by
  have hpa : sq.indexOf a < sq.length := List.indexOf_lt_length.mpr ha
  have hpb : sq.indexOf b < sq.length := List.indexOf_lt_length.mpr hb
  have hga : sq.get ⟨sq.indexOf a, hpa⟩ = a := List.indexOf_get hpa
  have hgb : sq.get ⟨sq.indexOf b, hpb⟩ = b := List.indexOf_get hpb
  have hpab : sq.indexOf a ≠ sq.indexOf b := by
    intro h
    apply hab
    rw [← hga, ← hgb]
    exact congrArg sq.get (Fin.ext h)
  set pa := sq.indexOf a with hpadef
  set pb := sq.indexOf b with hpbdef
  have hpa25 : pa < 25 := hlen ▸ hpa
  have hpb25 : pb < 25 := hlen ▸ hpb
  by_cases hr : pa / 5 = pb / 5
  · have hq1 : pa / 5 * 5 + (pa % 5 + 1) % 5 < sq.length := by omega
    have hq2 : pb / 5 * 5 + (pb % 5 + 1) % 5 < sq.length := by omega
    have henc : pfPair sq CipherMode.Encrypt a b
        = (sq.get ⟨pa / 5 * 5 + (pa % 5 + 1) % 5, hq1⟩,
           sq.get ⟨pb / 5 * 5 + (pb % 5 + 1) % 5, hq2⟩) := by
      rw [pfPair_row_enc sq a b hr, getD_eq_get_char sq _ hq1, getD_eq_get_char sq _ hq2]
    have hq12 : pa / 5 * 5 + (pa % 5 + 1) % 5 ≠ pb / 5 * 5 + (pb % 5 + 1) % 5 := by omega
    rw [henc]
    refine ⟨List.get_mem _ _ _, List.get_mem _ _ _,
      get_ne_of_idx_ne sq hnd _ _ hq1 hq2 hq12, ?_⟩
    have hi1 := indexOf_get_self sq hnd _ hq1
    have hi2 := indexOf_get_self sq hnd _ hq2
    have hdr : sq.indexOf (sq.get ⟨pa / 5 * 5 + (pa % 5 + 1) % 5, hq1⟩) / 5
        = sq.indexOf (sq.get ⟨pb / 5 * 5 + (pb % 5 + 1) % 5, hq2⟩) / 5 := by
      rw [hi1, hi2]
      omega
    rw [pfPair_row_dec sq _ _ hdr, hi1, hi2]
    have e1 : (pa / 5 * 5 + (pa % 5 + 1) % 5) / 5 * 5
        + ((pa / 5 * 5 + (pa % 5 + 1) % 5) % 5 + 4) % 5 = pa := by omega
    have e2 : (pb / 5 * 5 + (pb % 5 + 1) % 5) / 5 * 5
        + ((pb / 5 * 5 + (pb % 5 + 1) % 5) % 5 + 4) % 5 = pb := by omega
    rw [e1, e2, getD_eq_get_char sq pa hpa, getD_eq_get_char sq pb hpb, hga, hgb]
  · by_cases hc : pa % 5 = pb % 5
    · have hq1 : (pa / 5 + 1) % 5 * 5 + pa % 5 < sq.length := by omega
      have hq2 : (pb / 5 + 1) % 5 * 5 + pb % 5 < sq.length := by omega
      have henc : pfPair sq CipherMode.Encrypt a b
          = (sq.get ⟨(pa / 5 + 1) % 5 * 5 + pa % 5, hq1⟩,
             sq.get ⟨(pb / 5 + 1) % 5 * 5 + pb % 5, hq2⟩) := by
        rw [pfPair_col_enc sq a b hr hc, getD_eq_get_char sq _ hq1, getD_eq_get_char sq _ hq2]
      have hq12 : (pa / 5 + 1) % 5 * 5 + pa % 5 ≠ (pb / 5 + 1) % 5 * 5 + pb % 5 := by omega
      rw [henc]
      refine ⟨List.get_mem _ _ _, List.get_mem _ _ _,
        get_ne_of_idx_ne sq hnd _ _ hq1 hq2 hq12, ?_⟩
      have hi1 := indexOf_get_self sq hnd _ hq1
      have hi2 := indexOf_get_self sq hnd _ hq2
      have hdr : ¬ sq.indexOf (sq.get ⟨(pa / 5 + 1) % 5 * 5 + pa % 5, hq1⟩) / 5
          = sq.indexOf (sq.get ⟨(pb / 5 + 1) % 5 * 5 + pb % 5, hq2⟩) / 5 := by
        rw [hi1, hi2]
        omega
      have hdc : sq.indexOf (sq.get ⟨(pa / 5 + 1) % 5 * 5 + pa % 5, hq1⟩) % 5
          = sq.indexOf (sq.get ⟨(pb / 5 + 1) % 5 * 5 + pb % 5, hq2⟩) % 5 := by
        rw [hi1, hi2]
        omega
      rw [pfPair_col_dec sq _ _ hdr hdc, hi1, hi2]
      have e1 : ((((pa / 5 + 1) % 5 * 5 + pa % 5) / 5 + 4) % 5) * 5
          + ((pa / 5 + 1) % 5 * 5 + pa % 5) % 5 = pa := by omega
      have e2 : ((((pb / 5 + 1) % 5 * 5 + pb % 5) / 5 + 4) % 5) * 5
          + ((pb / 5 + 1) % 5 * 5 + pb % 5) % 5 = pb := by omega
      rw [e1, e2, getD_eq_get_char sq pa hpa, getD_eq_get_char sq pb hpb, hga, hgb]
    · have hq1 : pa / 5 * 5 + pb % 5 < sq.length := by omega
      have hq2 : pb / 5 * 5 + pa % 5 < sq.length := by omega
      have henc : pfPair sq CipherMode.Encrypt a b
          = (sq.get ⟨pa / 5 * 5 + pb % 5, hq1⟩, sq.get ⟨pb / 5 * 5 + pa % 5, hq2⟩) := by
        rw [pfPair_rect sq CipherMode.Encrypt a b hr hc,
          getD_eq_get_char sq _ hq1, getD_eq_get_char sq _ hq2]
      have hq12 : pa / 5 * 5 + pb % 5 ≠ pb / 5 * 5 + pa % 5 := by omega
      rw [henc]
      refine ⟨List.get_mem _ _ _, List.get_mem _ _ _,
        get_ne_of_idx_ne sq hnd _ _ hq1 hq2 hq12, ?_⟩
      have hi1 := indexOf_get_self sq hnd _ hq1
      have hi2 := indexOf_get_self sq hnd _ hq2
      have hdr : ¬ sq.indexOf (sq.get ⟨pa / 5 * 5 + pb % 5, hq1⟩) / 5
          = sq.indexOf (sq.get ⟨pb / 5 * 5 + pa % 5, hq2⟩) / 5 := by
        rw [hi1, hi2]
        omega
      have hdc : ¬ sq.indexOf (sq.get ⟨pa / 5 * 5 + pb % 5, hq1⟩) % 5
          = sq.indexOf (sq.get ⟨pb / 5 * 5 + pa % 5, hq2⟩) % 5 := by
        rw [hi1, hi2]
        omega
      rw [pfPair_rect sq CipherMode.Decrypt _ _ hdr hdc, hi1, hi2]
      have e1 : (pa / 5 * 5 + pb % 5) / 5 * 5 + (pb / 5 * 5 + pa % 5) % 5 = pa := by omega
      have e2 : (pb / 5 * 5 + pa % 5) / 5 * 5 + (pa / 5 * 5 + pb % 5) % 5 = pb := by omega
      rw [e1, e2, getD_eq_get_char sq pa hpa, getD_eq_get_char sq pb hpb, hga, hgb]

/-- Digraph-by-digraph decryption undoes encryption over a 25-entry
duplicate-free square, for an even-length text of square entries with no
identical-letter digraph; the ciphertext again consists of square entries,
has no identical-letter digraph, and has the same length. -/
lemma pfPairsApply_props (sq : List Char) (hlen : sq.length = 25) (hnd : sq.Nodup) :
    ∀ (n : Nat) (l : List Char), l.length ≤ n →
      (∀ c ∈ l, c ∈ sq) → pairsDistinct l = true → l.length % 2 = 0 →
      (∀ c ∈ pfPairsApply sq CipherMode.Encrypt l, c ∈ sq) ∧
      pairsDistinct (pfPairsApply sq CipherMode.Encrypt l) = true ∧
      (pfPairsApply sq CipherMode.Encrypt l).length = l.length ∧
      pfPairsApply sq CipherMode.Decrypt (pfPairsApply sq CipherMode.Encrypt l) = l := by
  intro n
  induction n with
  | zero =>
    intro l hl _ _ _
    have : l = [] := List.length_eq_zero.mp (by omega)
    subst this
    exact ⟨by simp [pfPairsApply], by simp [pfPairsApply, pairsDistinct], rfl, rfl⟩
  | succ n ih =>
    intro l hl hmem hpd hev
    match l with
    | [] => exact ⟨by simp [pfPairsApply], by simp [pfPairsApply, pairsDistinct], rfl, rfl⟩
    | [a] => simp at hev
    | a :: b :: rest =>
      simp only [pairsDistinct, Bool.and_eq_true, bne_iff_ne, ne_eq] at hpd
      obtain ⟨hab, hpdr⟩ := hpd
      obtain ⟨e1m, e2m, ene, edec⟩ := pfPair_inverse sq hlen hnd a b
        (hmem a (by simp)) (hmem b (by simp)) hab
      have hrl : rest.length ≤ n := by
        simp only [List.length_cons] at hl
        omega
      have hrev : rest.length % 2 = 0 := by
        simp only [List.length_cons] at hev
        omega
      obtain ⟨ihm, ihp, ihl, ihd⟩ := ih rest hrl
        (fun c hc => hmem c (by simp [hc])) hpdr hrev
      have hstep : pfPairsApply sq CipherMode.Encrypt (a :: b :: rest)
          = (pfPair sq CipherMode.Encrypt a b).1 :: (pfPair sq CipherMode.Encrypt a b).2
            :: pfPairsApply sq CipherMode.Encrypt rest := rfl
      refine ⟨?_, ?_, ?_, ?_⟩
      · intro c hc
        rw [hstep] at hc
        rcases List.mem_cons.mp hc with rfl | hc2
        · exact e1m
        · rcases List.mem_cons.mp hc2 with rfl | hc3
          · exact e2m
          · exact ihm c hc3
      · rw [hstep]
        simp only [pairsDistinct, Bool.and_eq_true, bne_iff_ne, ne_eq]
        exact ⟨ene, ihp⟩
      · rw [hstep]
        simp only [List.length_cons, ihl]
      · rw [hstep]
        have hdstep : pfPairsApply sq CipherMode.Decrypt
            ((pfPair sq CipherMode.Encrypt a b).1 :: (pfPair sq CipherMode.Encrypt a b).2
              :: pfPairsApply sq CipherMode.Encrypt rest)
            = (pfPair sq CipherMode.Decrypt (pfPair sq CipherMode.Encrypt a b).1
                (pfPair sq CipherMode.Encrypt a b).2).1
              :: (pfPair sq CipherMode.Decrypt (pfPair sq CipherMode.Encrypt a b).1
                (pfPair sq CipherMode.Encrypt a b).2).2
              :: pfPairsApply sq CipherMode.Decrypt
                  (pfPairsApply sq CipherMode.Encrypt rest) := rfl
        rw [hdstep, edec, ihd]

/-- The doubled-pair fixer leaves a text with no identical-letter digraph
unchanged. -/
lemma fixDoubles_eq_self : ∀ (n : Nat) (l : List Char), l.length ≤ n →
    pairsDistinct l = true → fixDoubles l = l := by
  intro n
  induction n with
  | zero =>
    intro l hl _
    have : l = [] := List.length_eq_zero.mp (by omega)
    subst this
    rfl
  | succ n ih =>
    intro l hl hpd
    match l with
    | [] => rfl
    | [a] => rfl
    | a :: b :: rest =>
      simp only [pairsDistinct, Bool.and_eq_true, bne_iff_ne, ne_eq] at hpd
      obtain ⟨hab, hpdr⟩ := hpd
      have hrl : rest.length ≤ n := by
        simp only [List.length_cons] at hl
        omega
      simp only [fixDoubles, if_neg hab]
      rw [ih rest hrl hpdr]

/-- The `J`-merge leaves a `J`-free text unchanged. -/
lemma map_jToI_eq_self (l : List Char) (h : ∀ c ∈ l, c ≠ 'J') : l.map jToI = l := by
  induction l with
  | nil => rfl
  | cons a rest ih =>
    simp only [List.map_cons]
    rw [ih (fun c hc => h c (List.mem_cons_of_mem a hc))]
    have : jToI a = a := by
      unfold jToI
      rw [if_neg (h a (List.mem_cons_self _ _))]
    rw [this]

/-- The canonicalization fixes an even-length, `J`-free text with no
identical-letter digraph. -/
lemma pfPrep_eq_self (l : List Char) (hev : l.length % 2 = 0)
    (hpd : pairsDistinct l = true) (hj : ∀ c ∈ l, c ≠ 'J') : pfPrep l = l := by
  unfold pfPrep
  rw [map_jToI_eq_self l hj, fixDoubles_eq_self l.length l (le_refl _) hpd, if_neg (by omega)]

/-- The canonicalized text has even length. -/
lemma pfPrep_even (t : List Char) : (pfPrep t).length % 2 = 0 := by
  unfold pfPrep
  by_cases h : (fixDoubles (t.map jToI)).length % 2 = 1
  · rw [if_pos h]
    simp only [List.length_append, List.length_cons, List.length_nil]
    omega
  · rw [if_neg h]
    omega

/-- The doubled-pair fixer keeps every letter in the 25-letter alphabet (its
fillers `X` and `Q` are alphabet letters). -/
lemma fixDoubles_mem_alphabet25 : ∀ (n : Nat) (l : List Char), l.length ≤ n →
    (∀ c ∈ l, c ∈ alphabet25) → ∀ c ∈ fixDoubles l, c ∈ alphabet25 := by
  intro n
  induction n with
  | zero =>
    intro l hl _
    have : l = [] := List.length_eq_zero.mp (by omega)
    subst this
    intro c hc
    simp [fixDoubles] at hc
  | succ n ih =>
    intro l hl hmem
    match l with
    | [] => intro c hc; simp [fixDoubles] at hc
    | [a] => intro c hc; simp only [fixDoubles] at hc; simpa using hmem c (by simpa using hc)
    | a :: b :: rest =>
      intro c hc
      have hrl : rest.length ≤ n := by
        simp only [List.length_cons] at hl
        omega
      have hbl : (b :: rest).length ≤ n := by
        simp only [List.length_cons] at hl ⊢
        omega
      by_cases hab : a = b
      · simp only [fixDoubles, if_pos hab] at hc
        rcases List.mem_cons.mp hc with rfl | hc2
        · exact hmem c (by simp)
        · rcases List.mem_cons.mp hc2 with rfl | hc3
          · unfold fillerFor
            by_cases hx : a = 'X'
            · rw [if_pos hx]
              decide
            · rw [if_neg hx]
              decide
          · exact ih (b :: rest) hbl (fun d hd => hmem d (List.mem_cons_of_mem a hd)) c hc3
      · simp only [fixDoubles, if_neg hab] at hc
        rcases List.mem_cons.mp hc with rfl | hc2
        · exact hmem c (by simp)
        · rcases List.mem_cons.mp hc2 with rfl | hc3
          · exact hmem c (by simp)
          · exact ih rest hrl (fun d hd => hmem d (by simp [hd])) c hc3

/-- Every letter of the canonicalized form of an uppercase text lies in the
25-letter alphabet. -/
lemma pfPrep_mem_alphabet25 (t : List Char) (hup : ∀ c ∈ t, isUpperAlpha c) :
    ∀ c ∈ pfPrep t, c ∈ alphabet25 := by
  have hmap : ∀ x ∈ t.map jToI, x ∈ alphabet25 := by
    intro x hx
    obtain ⟨y, hy, rfl⟩ := List.mem_map.mp hx
    exact jToI_mem_alphabet25 y (hup y hy)
  intro c hc
  unfold pfPrep at hc
  by_cases h : (fixDoubles (t.map jToI)).length % 2 = 1
  · rw [if_pos h] at hc
    rcases List.mem_append.mp hc with hc2 | hc2
    · exact fixDoubles_mem_alphabet25 (t.map jToI).length _ (le_refl _) hmap c hc2
    · have : c = 'Z' := by simpa using hc2
      subst this
      decide
  · rw [if_neg h] at hc
    exact fixDoubles_mem_alphabet25 (t.map jToI).length _ (le_refl _) hmap c hc

/-- The universal digraph round-trip: for every valid keyword and every
uppercase text whose canonicalized form has no identical-letter digraph,
decrypting the encryption yields exactly the canonicalized text. -/
lemma playfair_roundtrip_general (key text : List Char) (hk : keywordOk key = true)
    (hup : ∀ c ∈ text, isUpperAlpha c) (hpd : pairsDistinct (pfPrep text) = true) :
    playfairApply key CipherMode.Decrypt (playfairApply key CipherMode.Encrypt text)
      = pfPrep text := by
  have hlen := keySquare_length key hk
  have hnd := keySquare_nodup key
  have hmem : ∀ c ∈ pfPrep text, c ∈ keySquare key :=
    fun c hc => keySquare_complete key c (pfPrep_mem_alphabet25 text hup c hc)
  obtain ⟨hm, hp, hl, hd⟩ := pfPairsApply_props (keySquare key) hlen hnd
    (pfPrep text).length (pfPrep text) (le_refl _) hmem hpd (pfPrep_even text)
  have hCne : ∀ c ∈ pfPairsApply (keySquare key) CipherMode.Encrypt (pfPrep text), c ≠ 'J' :=
    fun c hc => alphabet25_ne_J c (keySquare_subset key hk c (hm c hc))
  show pfPairsApply (keySquare key) CipherMode.Decrypt
      (pfPrep (pfPairsApply (keySquare key) CipherMode.Encrypt (pfPrep text))) = pfPrep text
  rw [pfPrep_eq_self _ (by rw [hl]; exact pfPrep_even text) hp hCne]
  exact hd

/-! ## Claim theorems -/

/-- Claim C1: for both splittable cipher types (Caesar and Vigenere), every
text, every valid key and both modes, splitting into `N ≥ 1` chunks per the
section 4.5 policy, applying the cipher to each chunk independently, and
concatenating the results in submission order is byte-identical to a single
whole-text application; in particular the newer driver's chunked output
equals the unsplit output. -/
theorem chunked_equals_unsplit (mode : CipherMode) (text : List Char)
    (finishTimes : Nat → Nat) (rawKeyLen : Nat) :
    (∀ s n, 0 < n →
      ((evenChunks text n).map (caesarApply s mode)).flatten = caesarApply s mode text) ∧
    (∀ (key : List Char) n, key ≠ [] → 0 < n →
      ((vigChunks text key.length n).map (vigenereApply key mode)).flatten
        = vigenereApply key mode text) ∧
    (∀ s, newDriverOutput CipherType.Caesar (ProgCipher.caesar s) rawKeyLen mode finishTimes text
        = caesarApply s mode text) ∧
    (∀ key : List Char, key ≠ [] →
      newDriverOutput CipherType.Vigenere (ProgCipher.vigenere key) key.length mode
          finishTimes text
        = vigenereApply key mode text) := by
  refine ⟨?_, ?_, ?_, ?_⟩
  · intro s n hn
    exact evenChunks_caesar_flatten s mode text n hn
  · intro key n hk hn
    exact vigChunks_apply_flatten key mode text n hk hn
  · intro s
    show reassemble (submitChunks (ProgCipher.caesar s) mode finishTimes 0
      (newDriverInvocations CipherType.Caesar rawKeyLen text)) = caesarApply s mode text
    rw [reassemble_submitChunks]
    show ((evenChunks text threadNum).map (caesarApply s mode)).flatten = caesarApply s mode text
    exact evenChunks_caesar_flatten s mode text threadNum (by norm_num [threadNum])
  · intro key hk
    show reassemble (submitChunks (ProgCipher.vigenere key) mode finishTimes 0
      (newDriverInvocations CipherType.Vigenere key.length text)) = vigenereApply key mode text
    rw [reassemble_submitChunks]
    show ((vigChunks text key.length threadNum).map (vigenereApply key mode)).flatten
      = vigenereApply key mode text
    exact vigChunks_apply_flatten key mode text threadNum hk (by norm_num [threadNum])

/-- Witness for C1 at concrete inputs: the Caesar split of the polyalphabetic
test text into the driver's 12 chunks, and the newer driver's Vigenere
dispatch with key `hello`. -/
theorem chunked_equals_unsplit_witness :
    ((evenChunks vigTestPlain threadNum).map (caesarApply 3 CipherMode.Encrypt)).flatten
      = caesarApply 3 CipherMode.Encrypt vigTestPlain ∧
    newDriverOutput CipherType.Vigenere (ProgCipher.vigenere ("hello".toList))
        ("hello".toList).length CipherMode.Encrypt (fun _ => 0) vigTestPlain
      = vigenereApply ("hello".toList) CipherMode.Encrypt vigTestPlain :=
  ⟨(chunked_equals_unsplit CipherMode.Encrypt vigTestPlain (fun _ => 0) 0).1 3
      threadNum (by decide),
   (chunked_equals_unsplit CipherMode.Encrypt vigTestPlain (fun _ => 0)
      ("hello".toList).length).2.2.2 ("hello".toList) (by decide)⟩

/-- Claim C2: for the digraph-substitution (Playfair) cipher the newer
driver does not split the text: the whole text goes through exactly one
`applyCipher` invocation, and the output is that single invocation's
result. -/
theorem playfair_not_split (rawKeyLen : Nat) (text : List Char) (c : ProgCipher)
    (mode : CipherMode) (finishTimes : Nat → Nat) :
    newDriverInvocations CipherType.Playfair rawKeyLen text = [text] ∧
    newDriverOutput CipherType.Playfair c rawKeyLen mode finishTimes text
      = progApply c mode text :=
  ⟨rfl, rfl⟩

/-- Claim C3: every Vigenere chunk starts at an offset `j * cl` where the
chunk length `cl` is a multiple of the key length; every chunk except the
last has length exactly `cl` (hence a multiple of the key length); and the
chunked output, each chunk's key cycle starting at index 0, matches the
sequential key stream over the whole text. -/
theorem vigenere_chunk_alignment (text key : List Char) (mode : CipherMode) (n : Nat)
    (hk : key ≠ []) (hn : 0 < n) :
    vigChunkLen text.length key.length n % key.length = 0 ∧
    (∀ j, j < (vigChunks text key.length n).length →
      (vigChunks text key.length n).get? j
        = some ((text.drop (j * vigChunkLen text.length key.length n)).take
            (vigChunkLen text.length key.length n))) ∧
    (∀ j, j + 1 < (vigChunks text key.length n).length →
      ((vigChunks text key.length n).map List.length).get? j
        = some (vigChunkLen text.length key.length n)) ∧
    ((vigChunks text key.length n).map (vigenereApply key mode)).flatten
      = vigenereApply key mode text := by
  have hL : 0 < key.length := List.length_pos.mpr hk
  refine ⟨vigChunkLen_mod _ _ _, ?_, ?_, vigChunks_apply_flatten key mode text n hk hn⟩
  · intro j hj
    have h := vigChunksLoop_get? text (vigChunkLen text.length key.length n) n 0 j hj
    simpa using h.1
  · intro j hj
    have hjlt : j < (vigChunks text key.length n).length := by omega
    have h := vigChunksLoop_get? text (vigChunkLen text.length key.length n) n 0 j hjlt
    have h2 := vigChunksLoop_get? text (vigChunkLen text.length key.length n) n 0 (j + 1) hj
    simp only [Nat.zero_add] at h h2
    rw [List.get?_map]
    unfold vigChunks
    rw [h.1]
    have hlen : ((text.drop (j * vigChunkLen text.length key.length n)).take
        (vigChunkLen text.length key.length n)).length
        = vigChunkLen text.length key.length n := by
      simp only [List.length_take, List.length_drop]
      have e2 : (j + 1) * vigChunkLen text.length key.length n
          = j * vigChunkLen text.length key.length n
            + vigChunkLen text.length key.length n := by ring
      have hb := h2.2
      omega
    rw [Option.map_some']
    exact congrArg some hlen

/-- Witness for C3 at concrete input: the polyalphabetic test text with key
`hello` over the driver's 12 iterations. -/
theorem vigenere_chunk_alignment_witness :
    vigChunkLen vigTestPlain.length ("hello".toList).length threadNum
        % ("hello".toList).length = 0 ∧
    ((vigChunks vigTestPlain ("hello".toList).length threadNum).map
        (vigenereApply ("hello".toList) CipherMode.Encrypt)).flatten
      = vigenereApply ("hello".toList) CipherMode.Encrypt vigTestPlain :=
  ⟨(vigenere_chunk_alignment vigTestPlain ("hello".toList) CipherMode.Encrypt threadNum
      (by decide) (by decide)).1,
   (vigenere_chunk_alignment vigTestPlain ("hello".toList) CipherMode.Encrypt threadNum
      (by decide) (by decide)).2.2.2⟩

/-- Claim C7: the even-split chunks used for the Caesar cipher form an
in-order partition of the input, there is one chunk per worker, and chunk `i`
has length `len / n + 1` for the first `len mod n` chunks and `len / n`
afterwards — so lengths differ by at most one and the remainder goes one
extra character each to the earliest chunks. -/
theorem caesar_chunks_partition (text : List Char) (n : Nat) (hn : 0 < n) :
    (evenChunks text n).flatten = text ∧
    (evenChunks text n).length = n ∧
    (∀ i, i < n →
      ((evenChunks text n).map List.length).get? i
        = some (if i < text.length % n then text.length / n + 1 else text.length / n)) := by
  obtain ⟨ha, hb, hc⟩ := evenChunks_invariant text n hn
  refine ⟨evenChunks_flatten text n hn, ?_, ?_⟩
  · unfold evenChunks
    exact evenChunksLoop_length text (text.length / n) n 0 _
  · intro i hi
    unfold evenChunks
    rw [evenChunksLoop_chunk_length text (text.length / n) n 0
      (text.length - n * (text.length / n)) (by omega) (by omega) i hi, hc]

/-- Witness for C7 at concrete input: the digraph test text split across the
driver's 12 workers. -/
theorem caesar_chunks_partition_witness :
    (evenChunks pfTestPlain threadNum).flatten = pfTestPlain ∧
    (evenChunks pfTestPlain threadNum).length = threadNum :=
  ⟨(caesar_chunks_partition pfTestPlain threadNum (by decide)).1,
   (caesar_chunks_partition pfTestPlain threadNum (by decide)).2.1⟩

/-- Claim C8: the final output is the concatenation of the per-chunk cipher
outputs in submission-index order, it is unchanged under any change of the
chunks' finish times (which chunk finishes first is irrelevant), and one
result is obtained per submitted chunk before output is assembled. -/
theorem reassembly_submission_order (c : ProgCipher) (mode : CipherMode)
    (finishTimes finishTimes2 : Nat → Nat) (chunks : List (List Char)) (i : Nat) :
    reassemble (submitChunks c mode finishTimes i chunks)
      = (chunks.map (progApply c mode)).flatten ∧
    (submitChunks c mode finishTimes i chunks).length = chunks.length ∧
    reassemble (submitChunks c mode finishTimes i chunks)
      = reassemble (submitChunks c mode finishTimes2 i chunks) := by
  refine ⟨reassemble_submitChunks c mode finishTimes chunks i,
    submitChunks_length c mode finishTimes chunks i, ?_⟩
  rw [reassemble_submitChunks, reassemble_submitChunks]

/-- Claim C9: in both drivers the ready-polling loop never executes its body
— the all-futures-ready flag starts `true` (respectively `1`) and the loop
guard is its negation — while the reassembly's blocking `get` calls still
obtain every chunk's result. -/
theorem polling_loop_never_runs :
    (∀ (step : Bool → Bool) (fuel : Nat), pollIters step newDriverReadyInit fuel = 0) ∧
    (∀ (step : Int → Int) (fuel : Nat), pollItersInt step oldDriverReadyInit fuel = 0) ∧
    (∀ (c : ProgCipher) (mode : CipherMode) (ft : Nat → Nat) (chunks : List (List Char)),
      reassemble (submitChunks c mode ft 0 chunks) = (chunks.map (progApply c mode)).flatten) := by
  refine ⟨?_, ?_, ?_⟩
  · intro step fuel
    cases fuel <;> simp [pollIters, newDriverReadyInit]
  · intro step fuel
    cases fuel <;> simp [pollItersInt, oldDriverReadyInit]
  · intro c mode ft chunks
    exact reassemble_submitChunks c mode ft chunks 0

/-- Claim C10: in the newer driver's Vigenere path with a non-empty key, the
key-length division is on a positive divisor, at most the fixed thread count
(12) of chunks is submitted, every chunk extraction performed was an in-range
`substr` (the caught `out_of_range` only ends the loop), and the submitted
chunks still cover the whole text. -/
theorem vigenere_dispatch_safety (text key : List Char) (hk : key ≠ []) :
    0 < key.length ∧
    (vigChunks text key.length threadNum).length ≤ threadNum ∧
    (∀ j, (hj : j < (vigChunks text key.length threadNum).length) →
      substrE text (j * vigChunkLen text.length key.length threadNum)
          (vigChunkLen text.length key.length threadNum)
        = Except.ok ((vigChunks text key.length threadNum).get ⟨j, hj⟩)) ∧
    (vigChunks text key.length threadNum).flatten = text := by
  have hL : 0 < key.length := List.length_pos.mpr hk
  refine ⟨hL, vigChunksLoop_length_le text _ threadNum 0, ?_, ?_⟩
  · intro j hj
    have h := vigChunksLoop_get? text (vigChunkLen text.length key.length threadNum)
      threadNum 0 j hj
    simp only [Nat.zero_add] at h
    have hget : (vigChunks text key.length threadNum).get? j
        = some ((vigChunks text key.length threadNum).get ⟨j, hj⟩) :=
      List.get?_eq_get hj
    unfold vigChunks at hget
    rw [hget] at h
    have heq : ((vigChunks text key.length threadNum).get ⟨j, hj⟩)
        = (text.drop (j * vigChunkLen text.length key.length threadNum)).take
            (vigChunkLen text.length key.length threadNum) :=
      Option.some_injective _ h.1
    rw [heq]
    unfold substrE
    rw [if_neg (by omega)]
  · have hcov := vigChunks_coverage text.length key.length threadNum hL (by norm_num [threadNum])
    unfold vigChunks
    have h := vigChunksLoop_flatten text (vigChunkLen text.length key.length threadNum)
      threadNum 0 (by omega)
    simpa using h

/-- Witness for C10 at concrete input: the polyalphabetic test text with key
`hello`. -/
theorem vigenere_dispatch_safety_witness :
    (vigChunks vigTestPlain ("hello".toList).length threadNum).length ≤ threadNum ∧
    (vigChunks vigTestPlain ("hello".toList).length threadNum).flatten = vigTestPlain :=
  ⟨(vigenere_dispatch_safety vigTestPlain ("hello".toList) (by decide)).2.1,
   (vigenere_dispatch_safety vigTestPlain ("hello".toList) (by decide)).2.2.2⟩

/-- Claim C4 (amended): for every shift key in `[0, 25]` and all-uppercase
text, decrypting the encryption returns the text; likewise for every valid
polyalphabetic keyword; for the digraph cipher, for every valid keyword and
every uppercase text whose canonicalized form contains no identical-letter
digraph (the trailing-`Z` padding can create one), the round-trip yields
exactly the canonicalized (filler-adjusted) `pfPrep` form — which can differ
from the text verbatim, as it does on the repository's digraph test text. -/
theorem cipher_roundtrip :
    (∀ s, s ≤ 25 → ∀ text : List Char, (∀ c ∈ text, isUpperAlpha c) →
      caesarApply s CipherMode.Decrypt (caesarApply s CipherMode.Encrypt text) = text) ∧
    (∀ key : List Char, keywordOk key = true → ∀ text : List Char,
      vigenereApply key CipherMode.Decrypt (vigenereApply key CipherMode.Encrypt text)
        = text) ∧
    (∀ key text : List Char, keywordOk key = true → (∀ c ∈ text, isUpperAlpha c) →
      pairsDistinct (pfPrep text) = true →
      playfairApply key CipherMode.Decrypt (playfairApply key CipherMode.Encrypt text)
        = pfPrep text) ∧
    pfPrep pfTestPlain ≠ pfTestPlain := by
  refine ⟨?_, ?_, ?_, by decide⟩
  · intro s _ text _
    exact caesarApply_roundtrip s text
  · intro key _ text
    exact vigenereGo_roundtrip (key.map Char.toUpper) text 0
  · intro key text hk hup hpd
    exact playfair_roundtrip_general key text hk hup hpd

/-- Claim C4 counterexample: the round-trip invariant as stated fails on the
digraph cipher with the valid key `hello` and the sanitized uppercase text
`Z` — the odd length pads the canonicalized form to the doubled digraph `ZZ`,
which encrypts to `VV`, and decryption re-canonicalizes `VV` to `VXVZ`
before transforming, so the round-trip returns `ZWZY`: neither the
canonicalized `ZZ` nor `Z` verbatim. -/
theorem playfair_roundtrip_counterexample :
    keywordOk ("hello".toList) = true ∧
    (∀ c ∈ [('Z' : Char)], isUpperAlpha c) ∧
    pfPrep [('Z' : Char)] = "ZZ".toList ∧
    playfairApply ("hello".toList) CipherMode.Decrypt
        (playfairApply ("hello".toList) CipherMode.Encrypt [('Z' : Char)]) = "ZWZY".toList ∧
    playfairApply ("hello".toList) CipherMode.Decrypt
        (playfairApply ("hello".toList) CipherMode.Encrypt [('Z' : Char)])
      ≠ pfPrep [('Z' : Char)] ∧
    playfairApply ("hello".toList) CipherMode.Decrypt
        (playfairApply ("hello".toList) CipherMode.Encrypt [('Z' : Char)])
      ≠ [('Z' : Char)] :=
  ⟨by decide, by decide, by decide, by decide, by decide, by decide⟩

/-- Witness for C4 at concrete inputs: shift key 10 on `HELLOWORLD`, the
keyword `hello` on the polyalphabetic test text, and the digraph round-trip
on the repository's digraph test text (whose canonicalized form has no
identical-letter digraph). -/
theorem cipher_roundtrip_witness :
    caesarApply 10 CipherMode.Decrypt
        (caesarApply 10 CipherMode.Encrypt ("HELLOWORLD".toList)) = "HELLOWORLD".toList ∧
    vigenereApply ("hello".toList) CipherMode.Decrypt
        (vigenereApply ("hello".toList) CipherMode.Encrypt vigTestPlain) = vigTestPlain ∧
    playfairApply ("hello".toList) CipherMode.Decrypt
        (playfairApply ("hello".toList) CipherMode.Encrypt pfTestPlain) = pfPrep pfTestPlain :=
  ⟨cipher_roundtrip.1 10 (by decide) ("HELLOWORLD".toList) (by decide),
   cipher_roundtrip.2.1 ("hello".toList) (by decide) vigTestPlain,
   cipher_roundtrip.2.2.1 ("hello".toList) pfTestPlain (by decide) (by decide) (by decide)⟩

/-- Claim C5: the factory fails (modelling the `InvalidKey` throw, with no
cipher instance returned) exactly when the raw key is malformed for the
requested kind: a shift key must be a non-empty all-digits string (so
`-10`, `agfag` and the punctuation key are rejected, `10` is accepted with
shift 10, and `30` — a value at least 26 — is accepted with shift
`30 mod 26 = 4`); a keyword key must be non-empty letters (so `1340`, `-10`
and the punctuation key are rejected and `hello` is accepted for both the
Playfair and Vigenere kinds). -/
theorem factory_invalid_key :
    (∀ k : List Char, (cipherFactory CipherType.Caesar k).isOk = true
        ↔ (k ≠ [] ∧ ∀ c ∈ k, c.isDigit = true)) ∧
    (∀ k : List Char, (cipherFactory CipherType.Playfair k).isOk = true
        ↔ (k ≠ [] ∧ ∀ c ∈ k, c.isAlpha = true)) ∧
    (∀ k : List Char, (cipherFactory CipherType.Vigenere k).isOk = true
        ↔ (k ≠ [] ∧ ∀ c ∈ k, c.isAlpha = true)) ∧
    (cipherFactory CipherType.Caesar ("-10".toList)).isOk = false ∧
    (cipherFactory CipherType.Caesar ("agfag".toList)).isOk = false ∧
    (cipherFactory CipherType.Caesar punctKey).isOk = false ∧
    cipherFactory CipherType.Caesar ("10".toList) = Except.ok (ProgCipher.caesar 10) ∧
    cipherFactory CipherType.Caesar ("30".toList) = Except.ok (ProgCipher.caesar 4) ∧
    (cipherFactory CipherType.Vigenere ("1340".toList)).isOk = false ∧
    (cipherFactory CipherType.Vigenere ("-10".toList)).isOk = false ∧
    (cipherFactory CipherType.Vigenere punctKey).isOk = false ∧
    (cipherFactory CipherType.Playfair ("hello".toList)).isOk = true ∧
    (cipherFactory CipherType.Vigenere ("hello".toList)).isOk = true := by
  refine ⟨?_, ?_, ?_, by decide, by decide, by decide, by decide, by decide, by decide,
    by decide, by decide, by decide, by decide⟩
  · intro k
    rw [← caesarKeyOk_iff]
    unfold cipherFactory
    by_cases h : caesarKeyOk k <;> simp [h, Except.isOk, Except.toBool]
  · intro k
    rw [← keywordOk_iff]
    unfold cipherFactory
    by_cases h : keywordOk k <;> simp [h, Except.isOk, Except.toBool]
  · intro k
    rw [← keywordOk_iff]
    unfold cipherFactory
    by_cases h : keywordOk k <;> simp [h, Except.isOk, Except.toBool]

/-- Claim C6: the three end-to-end scenarios of the unit tests, with the
cipher instance built by the factory: shift key 10 maps `HELLOWORLD` to
`ROVVYGYBVN` and back; digraph key `hello` maps the test plaintext to the
expected ciphertext and decrypts it to the canonicalized form; polyalphabetic
key `hello` maps the test plaintext to the expected ciphertext and back
exactly. -/
theorem end_to_end_scenarios :
    (cipherFactory CipherType.Caesar ("10".toList)).map
        (fun c => progApply c CipherMode.Encrypt ("HELLOWORLD".toList))
      = Except.ok ("ROVVYGYBVN".toList) ∧
    (cipherFactory CipherType.Caesar ("10".toList)).map
        (fun c => progApply c CipherMode.Decrypt ("ROVVYGYBVN".toList))
      = Except.ok ("HELLOWORLD".toList) ∧
    (cipherFactory CipherType.Playfair ("hello".toList)).map
        (fun c => progApply c CipherMode.Encrypt pfTestPlain)
      = Except.ok pfTestCipher ∧
    (cipherFactory CipherType.Playfair ("hello".toList)).map
        (fun c => progApply c CipherMode.Decrypt pfTestCipher)
      = Except.ok pfTestCanon ∧
    (cipherFactory CipherType.Vigenere ("hello".toList)).map
        (fun c => progApply c CipherMode.Encrypt vigTestPlain)
      = Except.ok vigTestCipher ∧
    (cipherFactory CipherType.Vigenere ("hello".toList)).map
        (fun c => progApply c CipherMode.Decrypt vigTestCipher)
      = Except.ok vigTestPlain :=
  ⟨by decide, by decide, by decide, by decide, by decide, by decide⟩

/-- Witness for C2 at concrete input: the digraph test text is handed to the
Playfair branch whole. -/
theorem playfair_not_split_witness :
    newDriverInvocations CipherType.Playfair 5 pfTestPlain = [pfTestPlain] :=
  (playfair_not_split 5 pfTestPlain (ProgCipher.playfair ("hello".toList))
    CipherMode.Encrypt (fun _ => 0)).1

/-- Witness for C5 at concrete input: the all-digits key `10` is accepted. -/
theorem factory_invalid_key_witness :
    (cipherFactory CipherType.Caesar ("10".toList)).isOk = true :=
  (factory_invalid_key.1 ("10".toList)).mpr ⟨by decide, by decide⟩

/-- Witness for C8 at concrete input: two Caesar chunks reassembled in
submission order under an arbitrary finish-time assignment. -/
theorem reassembly_submission_order_witness :
    reassemble (submitChunks (ProgCipher.caesar 3) CipherMode.Encrypt (fun j => 100 - j) 0
        [("HELLO".toList), ("WORLD".toList)])
      = ([("HELLO".toList), ("WORLD".toList)].map
          (progApply (ProgCipher.caesar 3) CipherMode.Encrypt)).flatten :=
  (reassembly_submission_order (ProgCipher.caesar 3) CipherMode.Encrypt (fun j => 100 - j)
    (fun _ => 0) [("HELLO".toList), ("WORLD".toList)] 0).1

/-- Witness for C9 at concrete input: five units of fuel and the identity
body step leave the newer driver's polling count at zero. -/
theorem polling_loop_never_runs_witness :
    pollIters (fun b => b) newDriverReadyInit 5 = 0 :=
  polling_loop_never_runs.1 (fun b => b) 5

end MPAGS
